import Mathlib

/-
Shallow embedding of the `fixed_capacity_vec` crate (src/src/lib.rs).

The crate builds on `std::vec::Vec<T>`, an external collaborator.  We model a
`Vec` as `RustVec`: its element list, its allocated capacity, and an abstract
address `addr` of its backing storage.  `addr` changes exactly when the backing
storage is reallocated, which lets us state the no-reallocation invariant.
Panics are modelled with `Except`, whose `error` payload carries the state of
the write view at the moment of the panic (for panics that can occur after a
partial mutation).
-/

set_option autoImplicit false

namespace FixedCapVec

/-- Model of `std::vec::Vec<T>`: element contents, allocated capacity, and an
abstract address of the backing allocation.  Well-formed vecs satisfy
`data.length ≤ cap` (`RustVec.WF`). -/
structure RustVec (α : Type) where
  data : List α
  cap : Nat
  addr : Nat
deriving DecidableEq, Repr

variable {α : Type}

/-- `Vec::len`. -/
def RustVec.len (v : RustVec α) : Nat := v.data.length

/-- The basic `Vec` well-formedness: the length never exceeds the capacity. -/
def RustVec.WF (v : RustVec α) : Prop := v.len ≤ v.cap

instance (v : RustVec α) : Decidable v.WF := Nat.decLe v.len v.cap

/-- Modelled from Rust's documented `Vec::reserve(additional)` contract:
does nothing if the capacity is already at least `len + additional`;
otherwise reallocates (the address changes) so that the capacity is at least
`len + additional`.  We take the minimal compliant new capacity. -/
def RustVec.reserve (v : RustVec α) (additional : Nat) : RustVec α :=
  if v.cap < v.len + additional then
    { data := v.data, cap := v.len + additional, addr := v.addr + 1 }
  else v

/-- Modelled from Rust's `Vec::push`: appends in place when there is spare
capacity, otherwise grows the allocation (amortized doubling) and the backing
storage moves. -/
def RustVec.push (v : RustVec α) (x : α) : RustVec α :=
  if v.len < v.cap then
    { v with data := v.data ++ [x] }
  else
    { data := v.data ++ [x], cap := max (v.len + 1) (2 * v.cap), addr := v.addr + 1 }

/-- Modelled from Rust's `Vec::extend_from_slice`: appends the whole slice,
reallocating first when the spare capacity does not suffice. -/
def RustVec.extendFromSlice (v : RustVec α) (xs : List α) : RustVec α :=
  if v.len + xs.length ≤ v.cap then
    { v with data := v.data ++ xs }
  else
    { data := v.data ++ xs, cap := max (v.len + xs.length) (2 * v.cap), addr := v.addr + 1 }

/-- The two `assert!` sites of `with_fixed_capacity` (lib.rs lines 94 and 99),
so that theorems can tell which check fired. -/
inductive SplitPanic where
  | capacityAssert
  | degenerateAlloc
deriving DecidableEq, Repr

/-- The write view (lib.rs lines 75-82).  In the embedding it owns the
(exclusively borrowed) buffer; operations return the updated view. -/
structure FixedCapacityVec (α : Type) where
  start : Nat
  max_len : Nat
  buffer : RustVec α
deriving DecidableEq, Repr

/-- `with_fixed_capacity` (lib.rs lines 87-111).  Returns the read view (the
first `len` elements of the buffer after the reservation) and the write view,
or the panic site when one of the two asserts fails. -/
def with_fixed_capacity (self : RustVec α) (capacity : Nat) :
    Except SplitPanic (List α × FixedCapacityVec α) :=
  let len := self.len
  let free := self.cap - len
  let self1 := if free < capacity then self.reserve (capacity - free) else self
  if capacity ≤ self1.cap - len then
    if 0 < self1.cap then
      .ok (self1.data.take len,
           { start := len, max_len := len + capacity, buffer := self1 })
    else .error SplitPanic.degenerateAlloc
  else .error SplitPanic.capacityAssert

/-- `additional_cap` (lib.rs lines 118-120). -/
def FixedCapacityVec.additional_cap (self : FixedCapacityVec α) : Nat :=
  self.max_len - self.buffer.len

/-- `extend_from_slice` (lib.rs lines 141-144): asserts the batch fits before
copying anything; on panic (`error`) the view is returned unchanged. -/
def FixedCapacityVec.extend_from_slice (self : FixedCapacityVec α) (other : List α) :
    Except (FixedCapacityVec α) (FixedCapacityVec α) :=
  if other.length ≤ self.additional_cap then
    .ok { self with buffer := self.buffer.extendFromSlice other }
  else .error self

/-- `push` (lib.rs lines 147-150): asserts spare reserved capacity remains,
then forwards to the buffer's push. -/
def FixedCapacityVec.push (self : FixedCapacityVec α) (item : α) :
    Except (FixedCapacityVec α) (FixedCapacityVec α) :=
  if 0 < self.additional_cap then
    .ok { self with buffer := self.buffer.push item }
  else .error self

/-- `Extend::extend` (lib.rs lines 178-183): draws elements one at a time,
re-checking `additional_cap` before each push; the `error` payload is the view
at the moment of the panic, holding the partially appended elements. -/
def FixedCapacityVec.extend (self : FixedCapacityVec α) (iter : List α) :
    Except (FixedCapacityVec α) (FixedCapacityVec α) :=
  match iter with
  | [] => .ok self
  | item :: rest =>
    if 0 < self.additional_cap then
      FixedCapacityVec.extend { self with buffer := self.buffer.push item } rest
    else .error self

/-- `Deref::deref` (lib.rs lines 159-161): the slice
`buffer[start .. buffer.len()]`, i.e. the suffix of the buffer starting at
`start`. -/
def FixedCapacityVec.deref (self : FixedCapacityVec α) : List α :=
  (self.buffer.data.take self.buffer.len).drop self.start

/-- `AsRef::as_ref` (lib.rs lines 190-192): `&self[..]`, which goes through
`deref`. -/
def FixedCapacityVec.as_ref (self : FixedCapacityVec α) : List α :=
  self.deref

/-- The write-view invariant stated in the spec:
`start ≤ buffer.len() ≤ max_len`. -/
def FixedCapacityVec.Inv (self : FixedCapacityVec α) : Prop :=
  self.start ≤ self.buffer.len ∧ self.buffer.len ≤ self.max_len

instance (f : FixedCapacityVec α) : Decidable f.Inv :=
  inferInstanceAs (Decidable (_ ∧ _))

/-- One call through the write view, for stating properties of arbitrary
sequences of operations. -/
inductive WOp (α : Type) where
  | push (item : α)
  | extend_from_slice (items : List α)
  | extend (items : List α)
deriving DecidableEq, Repr

/-- The elements an operation asks to append. -/
def WOp.items : WOp α → List α
  | .push x => [x]
  | .extend_from_slice xs => xs
  | .extend xs => xs

/-- The number of elements an operation asks to append. -/
def WOp.count (op : WOp α) : Nat := op.items.length

/-- All elements a sequence of operations asks to append, in order. -/
def appendedItems : List (WOp α) → List α
  | [] => []
  | op :: rest => op.items ++ appendedItems rest

/-- Dispatch one write-view call. -/
def applyOp (self : FixedCapacityVec α) : WOp α → Except (FixedCapacityVec α) (FixedCapacityVec α)
  | .push x => self.push x
  | .extend_from_slice xs => self.extend_from_slice xs
  | .extend xs => self.extend xs

/-- Run a sequence of write-view operations, stopping at the first panic and
returning the state at that moment. -/
def runOps (self : FixedCapacityVec α) :
    List (WOp α) → Except (FixedCapacityVec α) (FixedCapacityVec α)
  | [] => .ok self
  | op :: rest =>
    match applyOp self op with
    | .ok s => runOps s rest
    | .error s => .error s

/-! ### Basic lemmas about the buffer model -/

theorem RustVec.reserve_data (v : RustVec α) (n : Nat) : (v.reserve n).data = v.data := by
  unfold RustVec.reserve
  split <;> rfl

theorem RustVec.reserve_len (v : RustVec α) (n : Nat) : (v.reserve n).len = v.len := by
  unfold RustVec.len
  rw [RustVec.reserve_data]

theorem RustVec.cap_le_reserve_cap (v : RustVec α) (n : Nat) : v.cap ≤ (v.reserve n).cap := by
  unfold RustVec.reserve
  split
  next h => simpa using Nat.le_of_lt h
  next h => exact Nat.le_refl _

theorem RustVec.push_data (v : RustVec α) (x : α) : (v.push x).data = v.data ++ [x] := by
  unfold RustVec.push
  split <;> rfl

theorem RustVec.push_len (v : RustVec α) (x : α) : (v.push x).len = v.len + 1 := by
  unfold RustVec.len
  rw [RustVec.push_data, List.length_append, List.length_singleton]

theorem RustVec.push_noRealloc (v : RustVec α) (x : α) (h : v.len < v.cap) :
    v.push x = ⟨v.data ++ [x], v.cap, v.addr⟩ := by
  unfold RustVec.push
  rw [if_pos h]

theorem RustVec.extendFromSlice_data (v : RustVec α) (xs : List α) :
    (v.extendFromSlice xs).data = v.data ++ xs := by
  unfold RustVec.extendFromSlice
  split <;> rfl

theorem RustVec.extendFromSlice_noRealloc (v : RustVec α) (xs : List α)
    (h : v.len + xs.length ≤ v.cap) :
    v.extendFromSlice xs = ⟨v.data ++ xs, v.cap, v.addr⟩ := by
  unfold RustVec.extendFromSlice
  rw [if_pos h]

/-! ### Characterization of a successful split -/

theorem wfc_ok_facts {v : RustVec α} {c : Nat} {r : List α} {f : FixedCapacityVec α}
    (hWF : v.WF) (h : with_fixed_capacity v c = .ok (r, f)) :
    r = v.data ∧ f.start = v.len ∧ f.max_len = v.len + c ∧
    f.buffer.data = v.data ∧ 0 < f.buffer.cap ∧ v.len + c ≤ f.buffer.cap := by
  have hs1 : ∃ s1 : RustVec α,
      (if v.cap - v.len < c then v.reserve (c - (v.cap - v.len)) else v) = s1 ∧
      s1.data = v.data ∧ v.cap ≤ s1.cap := by
    split
    · exact ⟨_, rfl, RustVec.reserve_data _ _, RustVec.cap_le_reserve_cap _ _⟩
    · exact ⟨v, rfl, rfl, Nat.le_refl _⟩
  obtain ⟨s1, he, hdata, hcap⟩ := hs1
  unfold with_fixed_capacity at h
  simp only [] at h
  rw [he] at h
  split at h
  next hA =>
    split at h
    next hB =>
      simp only [Except.ok.injEq, Prod.mk.injEq] at h
      obtain ⟨hr, hf⟩ := h
      subst hr
      subst hf
      refine ⟨?_, rfl, rfl, hdata, hB, ?_⟩
      · rw [hdata]
        exact List.take_length v.data
      · have hlen : v.len ≤ v.cap := hWF
        show v.len + c ≤ s1.cap
        omega
    next hB => simp at h
  next hA => simp at h

/-! ### Per-operation lemmas -/

theorem FixedCapacityVec.push_ok_of_pos {f : FixedCapacityVec α} (x : α)
    (h : 0 < f.additional_cap) :
    f.push x = .ok ⟨f.start, f.max_len, f.buffer.push x⟩ := by
  unfold FixedCapacityVec.push
  rw [if_pos h]

theorem FixedCapacityVec.push_error_iff {f : FixedCapacityVec α} (x : α) :
    f.push x = .error f ↔ f.additional_cap = 0 := by
  unfold FixedCapacityVec.push
  split
  next hpos =>
    constructor
    · intro h
      exact absurd h (by simp)
    · omega
  next hpos =>
    constructor
    · intro _
      omega
    · intro _
      rfl

theorem FixedCapacityVec.push_total {f : FixedCapacityVec α} (x : α)
    (h1 : 0 < f.additional_cap) (h2 : f.max_len ≤ f.buffer.cap) :
    f.push x = .ok ⟨f.start, f.max_len,
      ⟨f.buffer.data ++ [x], f.buffer.cap, f.buffer.addr⟩⟩ := by
  have hlt : f.buffer.len < f.buffer.cap := by
    unfold FixedCapacityVec.additional_cap at h1
    omega
  rw [FixedCapacityVec.push_ok_of_pos x h1, RustVec.push_noRealloc _ _ hlt]

theorem FixedCapacityVec.extend_from_slice_ok_of_le {f : FixedCapacityVec α} {xs : List α}
    (h : xs.length ≤ f.additional_cap) :
    f.extend_from_slice xs = .ok ⟨f.start, f.max_len, f.buffer.extendFromSlice xs⟩ := by
  unfold FixedCapacityVec.extend_from_slice
  rw [if_pos h]

theorem FixedCapacityVec.extend_from_slice_error_iff {f : FixedCapacityVec α} (xs : List α) :
    f.extend_from_slice xs = .error f ↔ f.additional_cap < xs.length := by
  unfold FixedCapacityVec.extend_from_slice
  split
  next hle =>
    constructor
    · intro h
      exact absurd h (by simp)
    · omega
  next hle =>
    constructor
    · intro _
      omega
    · intro _
      rfl

theorem FixedCapacityVec.extend_from_slice_total {f : FixedCapacityVec α} {xs : List α}
    (h1 : xs.length ≤ f.additional_cap) (h2 : f.buffer.len ≤ f.max_len)
    (h3 : f.max_len ≤ f.buffer.cap) :
    f.extend_from_slice xs = .ok ⟨f.start, f.max_len,
      ⟨f.buffer.data ++ xs, f.buffer.cap, f.buffer.addr⟩⟩ := by
  have hle : f.buffer.len + xs.length ≤ f.buffer.cap := by
    unfold FixedCapacityVec.additional_cap at h1
    omega
  rw [FixedCapacityVec.extend_from_slice_ok_of_le h1,
      RustVec.extendFromSlice_noRealloc _ _ hle]

theorem FixedCapacityVec.extend_ok_of_le {f : FixedCapacityVec α} {xs : List α}
    (h : xs.length ≤ f.additional_cap) :
    ∃ g, f.extend xs = .ok g ∧ g.start = f.start ∧ g.max_len = f.max_len ∧
      g.buffer.data = f.buffer.data ++ xs := by
  induction xs generalizing f with
  | nil =>
    exact ⟨f, rfl, rfl, rfl, by simp⟩
  | cons x rest ih =>
    have hpos : 0 < f.additional_cap := by
      simp only [List.length_cons] at h
      omega
    have hlen1 : (f.buffer.push x).len = f.buffer.len + 1 := RustVec.push_len _ _
    have hadd : rest.length ≤ (⟨f.start, f.max_len, f.buffer.push x⟩ :
        FixedCapacityVec α).additional_cap := by
      unfold FixedCapacityVec.additional_cap at hpos h ⊢
      simp only [List.length_cons] at h
      simp only [hlen1]
      omega
    obtain ⟨g, hg, hgs, hgm, hgd⟩ := ih hadd
    refine ⟨g, ?_, hgs, hgm, ?_⟩
    · unfold FixedCapacityVec.extend
      rw [if_pos hpos]
      exact hg
    · rw [hgd]
      simp [RustVec.push_data]

theorem FixedCapacityVec.extend_ok_shape {f g : FixedCapacityVec α} {xs : List α}
    (h : f.extend xs = .ok g) :
    g.start = f.start ∧ g.max_len = f.max_len ∧
      g.buffer.data = f.buffer.data ++ xs ∧ xs.length ≤ f.additional_cap := by
  induction xs generalizing f with
  | nil =>
    unfold FixedCapacityVec.extend at h
    simp only [Except.ok.injEq] at h
    subst h
    exact ⟨rfl, rfl, by simp, by simp⟩
  | cons x rest ih =>
    unfold FixedCapacityVec.extend at h
    split at h
    next hpos =>
      obtain ⟨hgs, hgm, hgd, hgn⟩ := ih h
      have hlen1 : (f.buffer.push x).len = f.buffer.len + 1 := RustVec.push_len _ _
      refine ⟨hgs, hgm, ?_, ?_⟩
      · rw [hgd]
        simp [RustVec.push_data]
      · unfold FixedCapacityVec.additional_cap at hpos hgn ⊢
        simp only [hlen1] at hgn
        simp only [List.length_cons]
        omega
    next hpos => simp at h

theorem FixedCapacityVec.extend_error_shape {f g : FixedCapacityVec α} {xs : List α}
    (h : f.extend xs = .error g) :
    g.start = f.start ∧ g.max_len = f.max_len ∧
      g.buffer.data = f.buffer.data ++ xs.take f.additional_cap ∧
      g.additional_cap = 0 ∧ f.additional_cap < xs.length := by
  induction xs generalizing f with
  | nil =>
    unfold FixedCapacityVec.extend at h
    simp at h
  | cons x rest ih =>
    unfold FixedCapacityVec.extend at h
    split at h
    next hpos =>
      obtain ⟨hgs, hgm, hgd, hgz, hgn⟩ := ih h
      have hlen1 : (f.buffer.push x).len = f.buffer.len + 1 := RustVec.push_len _ _
      have hsucc : f.additional_cap = (⟨f.start, f.max_len, f.buffer.push x⟩ :
          FixedCapacityVec α).additional_cap + 1 := by
        unfold FixedCapacityVec.additional_cap at hpos ⊢
        simp only [hlen1]
        omega
      refine ⟨hgs, hgm, ?_, hgz, ?_⟩
      · rw [hgd, hsucc]
        simp [RustVec.push_data, List.take_succ_cons]
      · simp only [List.length_cons]
        omega
    next hpos =>
      simp only [Except.error.injEq] at h
      subst h
      have hz : f.additional_cap = 0 := by
        unfold FixedCapacityVec.additional_cap at hpos ⊢
        omega
      refine ⟨rfl, rfl, ?_, hz, ?_⟩
      · rw [hz]
        simp
      · rw [hz]
        simp

theorem FixedCapacityVec.extend_total {f : FixedCapacityVec α} {xs : List α}
    (h1 : xs.length ≤ f.additional_cap) (h2 : f.buffer.len ≤ f.max_len)
    (h3 : f.max_len ≤ f.buffer.cap) :
    f.extend xs = .ok ⟨f.start, f.max_len,
      ⟨f.buffer.data ++ xs, f.buffer.cap, f.buffer.addr⟩⟩ := by
  induction xs generalizing f with
  | nil =>
    rw [show f.buffer.data ++ [] = f.buffer.data from by simp]
    rfl
  | cons x rest ih =>
    have hpos : 0 < f.additional_cap := by
      simp only [List.length_cons] at h1
      omega
    have hlt : f.buffer.len < f.buffer.cap := by
      unfold FixedCapacityVec.additional_cap at hpos
      omega
    unfold FixedCapacityVec.extend
    rw [if_pos hpos, RustVec.push_noRealloc _ _ hlt]
    have hlen1 : ((⟨f.buffer.data ++ [x], f.buffer.cap, f.buffer.addr⟩ : RustVec α)).len
        = f.buffer.len + 1 := by
      unfold RustVec.len
      simp
    have h1' : rest.length ≤ (⟨f.start, f.max_len,
        ⟨f.buffer.data ++ [x], f.buffer.cap, f.buffer.addr⟩⟩ :
        FixedCapacityVec α).additional_cap := by
      unfold FixedCapacityVec.additional_cap at h1 ⊢
      simp only [List.length_cons] at h1
      simp only [hlen1]
      omega
    have h2' : ((⟨f.buffer.data ++ [x], f.buffer.cap, f.buffer.addr⟩ : RustVec α)).len
        ≤ f.max_len := by
      unfold FixedCapacityVec.additional_cap at hpos
      simp only [hlen1]
      omega
    rw [ih h1' h2' h3]
    simp

theorem applyOp_total {f : FixedCapacityVec α} {op : WOp α}
    (h1 : op.count ≤ f.additional_cap) (h2 : f.buffer.len ≤ f.max_len)
    (h3 : f.max_len ≤ f.buffer.cap) :
    applyOp f op = .ok ⟨f.start, f.max_len,
      ⟨f.buffer.data ++ op.items, f.buffer.cap, f.buffer.addr⟩⟩ := by
  cases op with
  | push x =>
    have hpos : 0 < f.additional_cap := by
      simp only [WOp.count, WOp.items, List.length_singleton] at h1
      omega
    exact FixedCapacityVec.push_total x hpos h3
  | extend_from_slice xs =>
    exact FixedCapacityVec.extend_from_slice_total h1 h2 h3
  | extend xs =>
    exact FixedCapacityVec.extend_total h1 h2 h3

theorem runOps_total {ops : List (WOp α)} {f : FixedCapacityVec α}
    (h1 : (ops.map WOp.count).sum ≤ f.additional_cap)
    (h2 : f.buffer.len ≤ f.max_len) (h3 : f.max_len ≤ f.buffer.cap) :
    runOps f ops = .ok ⟨f.start, f.max_len,
      ⟨f.buffer.data ++ appendedItems ops, f.buffer.cap, f.buffer.addr⟩⟩ := by
  induction ops generalizing f with
  | nil =>
    rw [show f.buffer.data ++ appendedItems ([] : List (WOp α)) = f.buffer.data from by
      simp [appendedItems]]
    rfl
  | cons op rest ih =>
    simp only [List.map_cons, List.sum_cons] at h1
    have hc : op.count ≤ f.additional_cap := by omega
    have happ := applyOp_total hc h2 h3
    simp only [runOps, happ]
    have hlen1 : ((⟨f.buffer.data ++ op.items, f.buffer.cap, f.buffer.addr⟩ :
        RustVec α)).len = f.buffer.len + op.count := by
      unfold RustVec.len WOp.count
      simp [RustVec.len]
    have h1' : (rest.map WOp.count).sum ≤ (⟨f.start, f.max_len,
        ⟨f.buffer.data ++ op.items, f.buffer.cap, f.buffer.addr⟩⟩ :
        FixedCapacityVec α).additional_cap := by
      unfold FixedCapacityVec.additional_cap at h1 ⊢
      simp only [hlen1]
      omega
    have h2' : ((⟨f.buffer.data ++ op.items, f.buffer.cap, f.buffer.addr⟩ :
        RustVec α)).len ≤ f.max_len := by
      unfold FixedCapacityVec.additional_cap at h1
      simp only [hlen1]
      omega
    rw [ih h1' h2' h3]
    simp [appendedItems, List.append_assoc]

theorem applyOp_ok_shape {f g : FixedCapacityVec α} {op : WOp α}
    (h : applyOp f op = .ok g) :
    g.start = f.start ∧ g.max_len = f.max_len ∧
      g.buffer.data = f.buffer.data ++ op.items := by
  cases op with
  | push x =>
    simp only [applyOp] at h
    unfold FixedCapacityVec.push at h
    split at h
    next =>
      simp only [Except.ok.injEq] at h
      subst h
      exact ⟨rfl, rfl, RustVec.push_data _ _⟩
    next => simp at h
  | extend_from_slice xs =>
    simp only [applyOp] at h
    unfold FixedCapacityVec.extend_from_slice at h
    split at h
    next =>
      simp only [Except.ok.injEq] at h
      subst h
      exact ⟨rfl, rfl, RustVec.extendFromSlice_data _ _⟩
    next => simp at h
  | extend xs =>
    have hx := FixedCapacityVec.extend_ok_shape h
    exact ⟨hx.1, hx.2.1, hx.2.2.1⟩

theorem runOps_ok_shape {ops : List (WOp α)} {f g : FixedCapacityVec α}
    (h : runOps f ops = .ok g) :
    g.start = f.start ∧ g.max_len = f.max_len ∧
      g.buffer.data = f.buffer.data ++ appendedItems ops := by
  induction ops generalizing f with
  | nil =>
    simp only [runOps, Except.ok.injEq] at h
    subst h
    exact ⟨rfl, rfl, by simp [appendedItems]⟩
  | cons op rest ih =>
    simp only [runOps] at h
    cases happ : applyOp f op with
    | ok s =>
      simp only [happ] at h
      obtain ⟨hs1, hs2, hs3⟩ := applyOp_ok_shape happ
      obtain ⟨hg1, hg2, hg3⟩ := ih h
      refine ⟨hg1.trans hs1, hg2.trans hs2, ?_⟩
      rw [hg3, hs3]
      simp [appendedItems, List.append_assoc]
    | error s =>
      simp only [happ] at h
      simp at h

theorem FixedCapacityVec.push_error_shape {f g : FixedCapacityVec α} {x : α}
    (h : f.push x = .error g) : g = f := by
  unfold FixedCapacityVec.push at h
  split at h
  next => simp at h
  next =>
    simp only [Except.error.injEq] at h
    exact h.symm

theorem FixedCapacityVec.extend_from_slice_error_shape {f g : FixedCapacityVec α}
    {xs : List α} (h : f.extend_from_slice xs = .error g) : g = f := by
  unfold FixedCapacityVec.extend_from_slice at h
  split at h
  next => simp at h
  next =>
    simp only [Except.error.injEq] at h
    exact h.symm

theorem runOps_append (f : FixedCapacityVec α) (l1 l2 : List (WOp α)) :
    runOps f (l1 ++ l2) =
      match runOps f l1 with
      | .ok s => runOps s l2
      | .error s => .error s := by
  induction l1 generalizing f with
  | nil => rfl
  | cons op rest ih =>
    simp only [List.cons_append, runOps]
    cases happ : applyOp f op with
    | ok s => exact ih s
    | error s => rfl

theorem appendedItems_replicate_push (n : Nat) (x : α) :
    appendedItems (List.replicate n (WOp.push x)) = List.replicate n x := by
  induction n with
  | zero => rfl
  | succ n ih =>
    simp only [List.replicate_succ, appendedItems, WOp.items, ih]
    rfl

theorem count_sum_replicate_push (n : Nat) (x : α) :
    ((List.replicate n (WOp.push x)).map WOp.count).sum = n := by
  induction n with
  | zero => rfl
  | succ n ih =>
    simp only [List.replicate_succ, List.map_cons, List.sum_cons, ih, WOp.count, WOp.items,
      List.length_singleton]
    omega

/-! ### Claim theorems -/

/-- C1 (amended): for every well-formed Vec and requested capacity `c`, whenever
`with_fixed_capacity c` returns (it can panic on a degenerate allocation, see
`with_fixed_capacity_not_total`), it returns a read view aliasing the first
`len` elements and a write view with `start = len` and `max_len = len + c`;
the buffer afterwards has at least `c` unused slots, its length is still `len`,
and no element value has changed. -/
theorem with_fixed_capacity_spec {α : Type} (v : RustVec α) (c : Nat) (r : List α)
    (f : FixedCapacityVec α) (hWF : v.WF) (h : with_fixed_capacity v c = .ok (r, f)) :
    r = v.data.take v.len ∧ f.start = v.len ∧ f.max_len = v.len + c ∧
    f.buffer.len = v.len ∧ f.buffer.data = v.data ∧ c ≤ f.buffer.cap - f.buffer.len := by
  obtain ⟨h1, h2, h3, h4, h5, h6⟩ := wfc_ok_facts hWF h
  have hlen : f.buffer.len = v.len := by
    unfold RustVec.len
    rw [h4]
  refine ⟨?_, h2, h3, hlen, h4, ?_⟩
  · rw [h1]
    exact (List.take_length v.data).symm
  · omega

/-- C1 counterexample: the claim as stated quantifies over every Vec and every
capacity, but splitting the empty, unallocated Vec with capacity 0 panics on
the degenerate-allocation assert instead of returning views. -/
theorem with_fixed_capacity_not_total :
    with_fixed_capacity (⟨[], 0, 0⟩ : RustVec Nat) 0 = .error SplitPanic.degenerateAlloc := rfl

/-- C1 witness: a concrete successful split satisfying the amended claim. -/
theorem with_fixed_capacity_spec_witness :
    (⟨[1, 2], 2, 0⟩ : RustVec Nat).WF ∧
    with_fixed_capacity (⟨[1, 2], 2, 0⟩ : RustVec Nat) 1 =
      .ok ([1, 2], ⟨2, 3, ⟨[1, 2], 3, 1⟩⟩) ∧
    (([1, 2] : List Nat) = [1, 2] ∧ (2 : Nat) = 2 ∧ (3 : Nat) = 3 ∧ (2 : Nat) = 2 ∧
      ([1, 2] : List Nat) = [1, 2] ∧ (1 : Nat) ≤ 1) :=
  ⟨by decide, rfl, with_fixed_capacity_spec ⟨[1, 2], 2, 0⟩ 1 [1, 2] ⟨2, 3, ⟨[1, 2], 3, 1⟩⟩
    (by decide) rfl⟩

/-- C3: `extend_from_slice other` panics exactly when `other` is longer than
the remaining capacity `max_len - buffer.len()`, and then the view (hence the
buffer's length and contents) is unchanged; otherwise it appends all of
`other`, in order, in one batch. -/
theorem extend_from_slice_atomic {α : Type} (f : FixedCapacityVec α) (other : List α) :
    (f.additional_cap < other.length → f.extend_from_slice other = .error f) ∧
    (other.length ≤ f.additional_cap → ∃ g, f.extend_from_slice other = .ok g ∧
      g.start = f.start ∧ g.max_len = f.max_len ∧
      g.buffer.data = f.buffer.data ++ other) := by
  constructor
  · intro h
    exact (FixedCapacityVec.extend_from_slice_error_iff other).mpr h
  · intro h
    exact ⟨_, FixedCapacityVec.extend_from_slice_ok_of_le h, rfl, rfl,
      RustVec.extendFromSlice_data _ _⟩

/-- C3 witness: a concrete in-capacity batch append. -/
theorem extend_from_slice_atomic_witness :
    ([7, 8] : List Nat).length ≤ (⟨0, 2, ⟨[], 2, 0⟩⟩ : FixedCapacityVec Nat).additional_cap ∧
    ∃ g, (⟨0, 2, ⟨[], 2, 0⟩⟩ : FixedCapacityVec Nat).extend_from_slice [7, 8] = .ok g ∧
      g.start = (⟨0, 2, ⟨[], 2, 0⟩⟩ : FixedCapacityVec Nat).start ∧
      g.max_len = (⟨0, 2, ⟨[], 2, 0⟩⟩ : FixedCapacityVec Nat).max_len ∧
      g.buffer.data = (⟨0, 2, ⟨[], 2, 0⟩⟩ : FixedCapacityVec Nat).buffer.data ++ [7, 8] :=
  ⟨by decide, (extend_from_slice_atomic ⟨0, 2, ⟨[], 2, 0⟩⟩ [7, 8]).2 (by decide)⟩

/-- C4: `extend` checks each drawn element against the freshly recomputed
remaining capacity immediately before appending it.  If the producer fits the
remaining capacity all its elements are appended in order; otherwise the call
panics the moment an element would exceed `max_len`, after having already
appended the first `additional_cap` elements (partial append on failure). -/
theorem extend_per_element_admission {α : Type} (f : FixedCapacityVec α) (items : List α) :
    (items.length ≤ f.additional_cap → ∃ g, f.extend items = .ok g ∧
      g.start = f.start ∧ g.max_len = f.max_len ∧
      g.buffer.data = f.buffer.data ++ items) ∧
    (f.additional_cap < items.length → ∃ g, f.extend items = .error g ∧
      g.start = f.start ∧ g.max_len = f.max_len ∧
      g.buffer.data = f.buffer.data ++ items.take f.additional_cap ∧
      g.additional_cap = 0) := by
  constructor
  · intro h
    exact FixedCapacityVec.extend_ok_of_le h
  · intro h
    cases hres : f.extend items with
    | ok g =>
      have := (FixedCapacityVec.extend_ok_shape hres).2.2.2
      omega
    | error g =>
      obtain ⟨h1, h2, h3, h4, _⟩ := FixedCapacityVec.extend_error_shape hres
      exact ⟨g, rfl, h1, h2, h3, h4⟩

/-- C4 witness: the spec's iterator scenario, on the write view produced by
splitting an empty buffer with capacity 4: a 3-element producer of 9 is
appended in full, yielding buffer contents `[9, 9, 9]`. -/
theorem extend_per_element_admission_witness :
    ([9, 9, 9] : List Nat).length ≤ (⟨0, 4, ⟨[], 4, 1⟩⟩ : FixedCapacityVec Nat).additional_cap ∧
    ∃ g, (⟨0, 4, ⟨[], 4, 1⟩⟩ : FixedCapacityVec Nat).extend [9, 9, 9] = .ok g ∧
      g.start = (⟨0, 4, ⟨[], 4, 1⟩⟩ : FixedCapacityVec Nat).start ∧
      g.max_len = (⟨0, 4, ⟨[], 4, 1⟩⟩ : FixedCapacityVec Nat).max_len ∧
      g.buffer.data = (⟨0, 4, ⟨[], 4, 1⟩⟩ : FixedCapacityVec Nat).buffer.data ++ [9, 9, 9] :=
  ⟨by decide, (extend_per_element_admission ⟨0, 4, ⟨[], 4, 1⟩⟩ [9, 9, 9]).1 (by decide)⟩

/-- C8: splitting an empty buffer with no allocation (capacity 0) with
requested capacity 0 panics via the degenerate-allocation check
(`assert!(self.capacity() > 0)` at lib.rs line 99). -/
theorem zero_capacity_empty_split_panics (α : Type) (a : Nat) :
    with_fixed_capacity (⟨[], 0, a⟩ : RustVec α) 0 = .error SplitPanic.degenerateAlloc := rfl

/-- C10: splitting a buffer with a non-empty backing allocation with capacity 0
succeeds, and through the resulting write view every push panics with the
buffer left unchanged, since the remaining capacity is 0 from the start. -/
theorem zero_capacity_split_nonempty_succeeds {α : Type} (v : RustVec α)
    (hcap : 0 < v.cap) :
    ∃ r f, with_fixed_capacity v 0 = .ok (r, f) ∧ r = v.data.take v.len ∧
      f.buffer.data = v.data ∧ ∀ x : α, f.push x = .error f := by
  unfold with_fixed_capacity
  simp only []
  rw [if_neg (Nat.not_lt_zero _), if_pos (Nat.zero_le _), if_pos hcap]
  refine ⟨_, _, rfl, rfl, rfl, ?_⟩
  intro x
  unfold FixedCapacityVec.push
  rw [if_neg ?_]
  unfold FixedCapacityVec.additional_cap
  simp

/-- C10 witness: a singleton buffer split with capacity 0. -/
theorem zero_capacity_split_nonempty_succeeds_witness :
    0 < (⟨[7], 1, 0⟩ : RustVec Nat).cap ∧
    ∃ r f, with_fixed_capacity (⟨[7], 1, 0⟩ : RustVec Nat) 0 = .ok (r, f) ∧
      r = (⟨[7], 1, 0⟩ : RustVec Nat).data.take (⟨[7], 1, 0⟩ : RustVec Nat).len ∧
      f.buffer.data = (⟨[7], 1, 0⟩ : RustVec Nat).data ∧
      ∀ x : Nat, f.push x = .error f :=
  ⟨by decide, zero_capacity_split_nonempty_succeeds ⟨[7], 1, 0⟩ (by decide)⟩

/-- C2: after a split with reserved capacity `c` of a well-formed Vec, every
sequence of push / extend / extend_from_slice calls whose cumulative appended
element count is at most `c` runs without panicking, and the address of the
buffer's backing storage never changes (no reallocation after the one up-front
reservation). -/
theorem no_reallocation_after_split {α : Type} (v : RustVec α) (c : Nat) (r : List α)
    (f : FixedCapacityVec α) (ops : List (WOp α)) (hWF : v.WF)
    (hsplit : with_fixed_capacity v c = .ok (r, f))
    (hcount : (ops.map WOp.count).sum ≤ c) :
    ∃ f2, runOps f ops = .ok f2 ∧ f2.buffer.addr = f.buffer.addr := by
  obtain ⟨h1, h2, h3, h4, h5, h6⟩ := wfc_ok_facts hWF hsplit
  have hlen : f.buffer.len = v.len := by
    unfold RustVec.len
    rw [h4]
  have hadd : f.additional_cap = c := by
    unfold FixedCapacityVec.additional_cap
    rw [h3, hlen]
    omega
  have h2' : f.buffer.len ≤ f.max_len := by
    rw [h3, hlen]
    omega
  have h3' : f.max_len ≤ f.buffer.cap := by
    rw [h3]
    omega
  exact ⟨_, runOps_total (by omega) h2' h3', rfl⟩

/-- C2 witness: two pushes within a reserved capacity of 2. -/
theorem no_reallocation_after_split_witness :
    (⟨[1], 1, 0⟩ : RustVec Nat).WF ∧
    with_fixed_capacity (⟨[1], 1, 0⟩ : RustVec Nat) 2 =
      .ok ([1], ⟨1, 3, ⟨[1], 3, 1⟩⟩) ∧
    (([WOp.push 5, WOp.push 6] : List (WOp Nat)).map WOp.count).sum ≤ 2 ∧
    ∃ f2, runOps (⟨1, 3, ⟨[1], 3, 1⟩⟩ : FixedCapacityVec Nat) [WOp.push 5, WOp.push 6] =
        .ok f2 ∧
      f2.buffer.addr = (⟨1, 3, ⟨[1], 3, 1⟩⟩ : FixedCapacityVec Nat).buffer.addr :=
  ⟨by decide, rfl, by decide,
    no_reallocation_after_split ⟨[1], 1, 0⟩ 2 [1] ⟨1, 3, ⟨[1], 3, 1⟩⟩
      [WOp.push 5, WOp.push 6] (by decide) rfl (by decide)⟩

/-- C6: the write-view invariant `start ≤ buffer.len() ≤ max_len` holds when
the write view is created by a split of a well-formed Vec and is preserved by
every operation on it — push, extend_from_slice and extend, on both their
success and their panic outcome.  The slice accessors `deref` / `as_ref` are
modelled as pure functions of the view and mutate nothing. -/
theorem write_view_invariant_preserved (α : Type) :
    (∀ (v : RustVec α) (c : Nat) (r : List α) (f : FixedCapacityVec α),
      v.WF → with_fixed_capacity v c = .ok (r, f) → f.Inv) ∧
    (∀ (f g : FixedCapacityVec α) (x : α),
      f.Inv → (f.push x = .ok g ∨ f.push x = .error g) → g.Inv) ∧
    (∀ (f g : FixedCapacityVec α) (xs : List α),
      f.Inv → (f.extend_from_slice xs = .ok g ∨ f.extend_from_slice xs = .error g) → g.Inv) ∧
    (∀ (f g : FixedCapacityVec α) (xs : List α),
      f.Inv → (f.extend xs = .ok g ∨ f.extend xs = .error g) → g.Inv) := by
  refine ⟨?_, ?_, ?_, ?_⟩
  · intro v c r f hWF h
    obtain ⟨h1, h2, h3, h4, h5, h6⟩ := wfc_ok_facts hWF h
    have hlen : f.buffer.len = v.len := by
      unfold RustVec.len
      rw [h4]
    constructor
    · rw [h2, hlen]
    · rw [h3, hlen]
      omega
  · intro f g x hInv h
    cases h with
    | inl h =>
      unfold FixedCapacityVec.push at h
      split at h
      next hpos =>
        simp only [Except.ok.injEq] at h
        subst h
        obtain ⟨hI1, hI2⟩ := hInv
        unfold FixedCapacityVec.additional_cap at hpos
        refine ⟨?_, ?_⟩
        · simp only [RustVec.push_len]
          omega
        · simp only [RustVec.push_len]
          omega
      next => simp at h
    | inr h =>
      rw [FixedCapacityVec.push_error_shape h]
      exact hInv
  · intro f g xs hInv h
    cases h with
    | inl h =>
      unfold FixedCapacityVec.extend_from_slice at h
      split at h
      next hle =>
        simp only [Except.ok.injEq] at h
        subst h
        obtain ⟨hI1, hI2⟩ := hInv
        unfold FixedCapacityVec.additional_cap at hle
        have hlen : (f.buffer.extendFromSlice xs).len = f.buffer.len + xs.length := by
          unfold RustVec.len
          rw [RustVec.extendFromSlice_data]
          simp
        refine ⟨?_, ?_⟩
        · simp only [hlen]
          omega
        · simp only [hlen]
          omega
      next => simp at h
    | inr h =>
      rw [FixedCapacityVec.extend_from_slice_error_shape h]
      exact hInv
  · intro f g xs hInv h
    obtain ⟨hI1, hI2⟩ := hInv
    cases h with
    | inl h =>
      obtain ⟨h1, h2, h3, h4⟩ := FixedCapacityVec.extend_ok_shape h
      have hlen : g.buffer.len = f.buffer.len + xs.length := by
        unfold RustVec.len
        rw [h3]
        simp
      unfold FixedCapacityVec.additional_cap at h4
      refine ⟨?_, ?_⟩
      · rw [h1, hlen]
        omega
      · rw [h2, hlen]
        omega
    | inr h =>
      obtain ⟨h1, h2, h3, _, _⟩ := FixedCapacityVec.extend_error_shape h
      have hlen : g.buffer.len = f.buffer.len + (xs.take f.additional_cap).length := by
        unfold RustVec.len
        rw [h3]
        simp
      have htk : (xs.take f.additional_cap).length ≤ f.additional_cap := by
        simp [List.length_take]
      have hac : f.additional_cap = f.max_len - f.buffer.len := rfl
      refine ⟨?_, ?_⟩
      · rw [h1, hlen]
        omega
      · rw [h2, hlen]
        omega

/-- C6 witness: the invariant holds for a concrete freshly created write view. -/
theorem write_view_invariant_preserved_witness :
    (⟨[], 0, 0⟩ : RustVec Nat).WF ∧
    with_fixed_capacity (⟨[], 0, 0⟩ : RustVec Nat) 2 = .ok ([], ⟨0, 2, ⟨[], 2, 1⟩⟩) ∧
    (⟨0, 2, ⟨[], 2, 1⟩⟩ : FixedCapacityVec Nat).Inv :=
  ⟨by decide, rfl,
    (write_view_invariant_preserved Nat).1 ⟨[], 0, 0⟩ 2 [] ⟨0, 2, ⟨[], 2, 1⟩⟩ (by decide) rfl⟩

/-- C7: for every write view reachable by a split of a well-formed Vec followed
by any successful sequence of operations, the slice accessors `deref` and
`as_ref` expose exactly the range `buffer[start .. buffer.len()]`: precisely
the elements appended since the split, and none of the original prefix. -/
theorem deref_exposes_appended_suffix {α : Type} (v : RustVec α) (c : Nat) (r : List α)
    (f g : FixedCapacityVec α) (ops : List (WOp α)) (hWF : v.WF)
    (hsplit : with_fixed_capacity v c = .ok (r, f))
    (hrun : runOps f ops = .ok g) :
    g.as_ref = g.deref ∧
    g.deref = (g.buffer.data.take g.buffer.len).drop g.start ∧
    g.buffer.data = v.data ++ g.deref ∧
    g.deref = appendedItems ops := by
  obtain ⟨h1, h2, h3, h4, h5, h6⟩ := wfc_ok_facts hWF hsplit
  obtain ⟨hg1, hg2, hg3⟩ := runOps_ok_shape hrun
  have hdata : g.buffer.data = v.data ++ appendedItems ops := by
    rw [hg3, h4]
  have hstart : g.start = v.len := by
    rw [hg1, h2]
  have hderef : g.deref = appendedItems ops := by
    unfold FixedCapacityVec.deref RustVec.len
    rw [List.take_length, hdata, hstart]
    exact List.drop_left v.data (appendedItems ops)
  exact ⟨rfl, rfl, by rw [hderef, hdata], hderef⟩

/-- C7 witness: after a split of `[1]` with capacity 2 and two pushes, the
accessors expose exactly the two appended elements. -/
theorem deref_exposes_appended_suffix_witness :
    (⟨[1], 1, 0⟩ : RustVec Nat).WF ∧
    with_fixed_capacity (⟨[1], 1, 0⟩ : RustVec Nat) 2 =
      .ok ([1], ⟨1, 3, ⟨[1], 3, 1⟩⟩) ∧
    runOps (⟨1, 3, ⟨[1], 3, 1⟩⟩ : FixedCapacityVec Nat) [WOp.push 5, WOp.push 6] =
      .ok ⟨1, 3, ⟨[1, 5, 6], 3, 1⟩⟩ ∧
    ((⟨1, 3, ⟨[1, 5, 6], 3, 1⟩⟩ : FixedCapacityVec Nat).as_ref =
        (⟨1, 3, ⟨[1, 5, 6], 3, 1⟩⟩ : FixedCapacityVec Nat).deref ∧
      (⟨1, 3, ⟨[1, 5, 6], 3, 1⟩⟩ : FixedCapacityVec Nat).deref =
        (([1, 5, 6] : List Nat).take 3).drop 1 ∧
      ([1, 5, 6] : List Nat) = [1] ++ (⟨1, 3, ⟨[1, 5, 6], 3, 1⟩⟩ :
        FixedCapacityVec Nat).deref ∧
      (⟨1, 3, ⟨[1, 5, 6], 3, 1⟩⟩ : FixedCapacityVec Nat).deref =
        appendedItems [WOp.push 5, WOp.push 6]) :=
  ⟨by decide, rfl, rfl,
    deref_exposes_appended_suffix ⟨[1], 1, 0⟩ 2 [1] ⟨1, 3, ⟨[1], 3, 1⟩⟩
      ⟨1, 3, ⟨[1, 5, 6], 3, 1⟩⟩ [WOp.push 5, WOp.push 6] (by decide) rfl rfl⟩

/-- C5: `push` panics if and only if the remaining capacity
`max_len - buffer.len()` is 0, leaving the view unchanged; on success it
appends exactly one element, incrementing the buffer length by 1 and
decreasing the remaining capacity by exactly 1.  Consequently, after a split
with capacity `c`, a sequence of `c` pushes succeeds and the `(c+1)`-th push
fails. -/
theorem push_capacity_ceiling {α : Type} (v : RustVec α) (c : Nat) (r : List α)
    (f : FixedCapacityVec α) (x : α) (hWF : v.WF)
    (hsplit : with_fixed_capacity v c = .ok (r, f)) :
    (∀ (g : FixedCapacityVec α) (item : α),
      (g.push item = .error g ↔ g.additional_cap = 0) ∧
      (0 < g.additional_cap → ∃ g2, g.push item = .ok g2 ∧
        g2.start = g.start ∧ g2.max_len = g.max_len ∧
        g2.buffer.data = g.buffer.data ++ [item] ∧
        g2.buffer.len = g.buffer.len + 1 ∧
        g2.additional_cap + 1 = g.additional_cap)) ∧
    (∃ g, runOps f (List.replicate c (WOp.push x)) = .ok g ∧
      runOps f (List.replicate (c + 1) (WOp.push x)) = .error g) := by
  constructor
  · intro g item
    constructor
    · exact FixedCapacityVec.push_error_iff item
    · intro hpos
      refine ⟨⟨g.start, g.max_len, g.buffer.push item⟩,
        FixedCapacityVec.push_ok_of_pos item hpos, rfl, rfl, RustVec.push_data _ _,
        RustVec.push_len _ _, ?_⟩
      unfold FixedCapacityVec.additional_cap at hpos ⊢
      simp only [RustVec.push_len]
      omega
  · obtain ⟨h1, h2, h3, h4, h5, h6⟩ := wfc_ok_facts hWF hsplit
    have hlen : f.buffer.len = v.len := by
      unfold RustVec.len
      rw [h4]
    have h2' : f.buffer.len ≤ f.max_len := by
      rw [h3, hlen]
      omega
    have h3' : f.max_len ≤ f.buffer.cap := by
      rw [h3]
      omega
    have hcnt : ((List.replicate c (WOp.push x)).map WOp.count).sum ≤ f.additional_cap := by
      rw [count_sum_replicate_push]
      unfold FixedCapacityVec.additional_cap
      rw [h3, hlen]
      omega
    have hok := runOps_total hcnt h2' h3'
    have hzero : (⟨f.start, f.max_len,
        ⟨f.buffer.data ++ appendedItems (List.replicate c (WOp.push x)),
         f.buffer.cap, f.buffer.addr⟩⟩ : FixedCapacityVec α).additional_cap = 0 := by
      unfold FixedCapacityVec.additional_cap RustVec.len
      simp only [appendedItems_replicate_push, List.length_append, List.length_replicate]
      have hdl : f.buffer.data.length = v.len := by
        rw [h4]
        rfl
      rw [hdl, h3]
      omega
    have herr := (FixedCapacityVec.push_error_iff x).mpr hzero
    refine ⟨_, hok, ?_⟩
    rw [List.replicate_succ' c (WOp.push x)] at *
    rw [runOps_append, hok]
    show runOps _ [WOp.push x] = _
    simp only [runOps, applyOp]
    rw [herr]

/-- C5 witness: capacity 2, two pushes succeed, the third fails. -/
theorem push_capacity_ceiling_witness :
    (⟨[], 0, 0⟩ : RustVec Nat).WF ∧
    with_fixed_capacity (⟨[], 0, 0⟩ : RustVec Nat) 2 = .ok ([], ⟨0, 2, ⟨[], 2, 1⟩⟩) ∧
    ((∀ (g : FixedCapacityVec Nat) (item : Nat),
      (g.push item = .error g ↔ g.additional_cap = 0) ∧
      (0 < g.additional_cap → ∃ g2, g.push item = .ok g2 ∧
        g2.start = g.start ∧ g2.max_len = g.max_len ∧
        g2.buffer.data = g.buffer.data ++ [item] ∧
        g2.buffer.len = g.buffer.len + 1 ∧
        g2.additional_cap + 1 = g.additional_cap)) ∧
    (∃ g, runOps (⟨0, 2, ⟨[], 2, 1⟩⟩ : FixedCapacityVec Nat)
        (List.replicate 2 (WOp.push 7)) = .ok g ∧
      runOps (⟨0, 2, ⟨[], 2, 1⟩⟩ : FixedCapacityVec Nat)
        (List.replicate (2 + 1) (WOp.push 7)) = .error g)) :=
  ⟨by decide, rfl,
    push_capacity_ceiling ⟨[], 0, 0⟩ 2 [] ⟨0, 2, ⟨[], 2, 1⟩⟩ 7 (by decide) rfl⟩

/-- C9 counterexample: in the round-trip scenario (buffer `[1,2,3,4]`, reserve
5, push `4`), extending the write view from the read view's four elements does
NOT fail: after the push, 4 of the 5 reserved slots remain, so the four-element
batch is admitted and the buffer already becomes `[1,2,3,4,4,1,2,3,4]` with
capacity 5, exactly as the crate's own doc example shows. -/
theorem round_trip_reserve_five_extend_succeeds :
    with_fixed_capacity (⟨[1, 2, 3, 4], 4, 0⟩ : RustVec Nat) 5 =
      .ok ([1, 2, 3, 4], ⟨4, 9, ⟨[1, 2, 3, 4], 9, 1⟩⟩) ∧
    (⟨4, 9, ⟨[1, 2, 3, 4], 9, 1⟩⟩ : FixedCapacityVec Nat).push 4 =
      .ok ⟨4, 9, ⟨[1, 2, 3, 4, 4], 9, 1⟩⟩ ∧
    (⟨4, 9, ⟨[1, 2, 3, 4, 4], 9, 1⟩⟩ : FixedCapacityVec Nat).additional_cap = 4 ∧
    (⟨4, 9, ⟨[1, 2, 3, 4, 4], 9, 1⟩⟩ : FixedCapacityVec Nat).extend_from_slice
        [1, 2, 3, 4] =
      .ok ⟨4, 9, ⟨[1, 2, 3, 4, 4, 1, 2, 3, 4], 9, 1⟩⟩ :=
  ⟨rfl, rfl, rfl, rfl⟩

/-- C9 (amended): starting from buffer `[1,2,3,4]`, splitting with capacity 5
and pushing `4` through the write view leaves the read view's range observing
`[1,2,3,4]`; then extending the write view from the read view's 4 elements
succeeds, because 4 of the 5 slots remain, and already yields the final buffer
`[1,2,3,4,4,1,2,3,4]` (a further push would then fail); the same sequence with
capacity 9 instead also yields the final buffer `[1,2,3,4,4,1,2,3,4]`. -/
theorem round_trip_composition :
    with_fixed_capacity (⟨[1, 2, 3, 4], 4, 0⟩ : RustVec Nat) 5 =
      .ok ([1, 2, 3, 4], ⟨4, 9, ⟨[1, 2, 3, 4], 9, 1⟩⟩) ∧
    (⟨4, 9, ⟨[1, 2, 3, 4], 9, 1⟩⟩ : FixedCapacityVec Nat).push 4 =
      .ok ⟨4, 9, ⟨[1, 2, 3, 4, 4], 9, 1⟩⟩ ∧
    (⟨4, 9, ⟨[1, 2, 3, 4, 4], 9, 1⟩⟩ :
        FixedCapacityVec Nat).buffer.data.take 4 = [1, 2, 3, 4] ∧
    (⟨4, 9, ⟨[1, 2, 3, 4, 4], 9, 1⟩⟩ : FixedCapacityVec Nat).extend_from_slice
        [1, 2, 3, 4] =
      .ok ⟨4, 9, ⟨[1, 2, 3, 4, 4, 1, 2, 3, 4], 9, 1⟩⟩ ∧
    (⟨4, 9, ⟨[1, 2, 3, 4, 4, 1, 2, 3, 4], 9, 1⟩⟩ : FixedCapacityVec Nat).deref =
      [4, 1, 2, 3, 4] ∧
    (⟨4, 9, ⟨[1, 2, 3, 4, 4, 1, 2, 3, 4], 9, 1⟩⟩ : FixedCapacityVec Nat).push 10 =
      .error ⟨4, 9, ⟨[1, 2, 3, 4, 4, 1, 2, 3, 4], 9, 1⟩⟩ ∧
    with_fixed_capacity (⟨[1, 2, 3, 4], 4, 0⟩ : RustVec Nat) 9 =
      .ok ([1, 2, 3, 4], ⟨4, 13, ⟨[1, 2, 3, 4], 13, 1⟩⟩) ∧
    (⟨4, 13, ⟨[1, 2, 3, 4], 13, 1⟩⟩ : FixedCapacityVec Nat).push 4 =
      .ok ⟨4, 13, ⟨[1, 2, 3, 4, 4], 13, 1⟩⟩ ∧
    (⟨4, 13, ⟨[1, 2, 3, 4, 4], 13, 1⟩⟩ : FixedCapacityVec Nat).extend_from_slice
        [1, 2, 3, 4] =
      .ok ⟨4, 13, ⟨[1, 2, 3, 4, 4, 1, 2, 3, 4], 13, 1⟩⟩ :=
  ⟨rfl, rfl, rfl, rfl, rfl, rfl, rfl, rfl, rfl⟩

end FixedCapVec
